import Mathlib

/-!
Verification of the mutation write-path preprocessing layer
(query/mutation.go): identifier allocation (AssignUids / verifyUid),
statement translation (ToInternal), wildcard expansion (expandEdges)
and orchestration (ApplyMutations).

External collaborators (lease authority, storage layer, schema registry,
commit protocol, the gql edge builder and the facet validator) are
modelled as explicit environment parameters, mirroring the narrow
interfaces the Go code consumes.  Machine integers (uint64) are modelled
as Nat with an explicit reduction modulo 2^64 at the one place where the
Go code performs an addition that can overflow.
-/

namespace Mutation

/-- The wildcard marker x.Star ("*") of the Go code. -/
def xStar : String := "*"

/-- Operation kind of a directed edge (protos.DirectedEdge_Op).
The Go assertion edge.Op == DEL or edge.Op == SET is vacuously true
for this two-constructor type. -/
inductive EdgeOp where
  | SET
  | DEL
  deriving DecidableEq, Repr

/-- protos.DirectedEdge: entity id, predicate name (Attr), byte value
(modelled as String), target id (ValueId), label, language, operation
kind and facets.  Facets are modelled as opaque key/value pairs. -/
structure DirectedEdge where
  op : EdgeOp
  entity : Nat
  attr : String
  value : String
  valueId : Nat
  label : String
  lang : String
  facets : List (String × String)
  deriving DecidableEq, Repr

/-- protos.NQuad, restricted to the fields the translated code reads:
subject, predicate, objectId, the default-value payload of ObjectValue
(GetDefaultVal, empty when the object is not a default value), and
facets. -/
structure NQuad where
  subject : String
  predicate : String
  objectId : String
  objectDefaultVal : String
  facets : List (String × String)
  deriving DecidableEq, Repr

/-- verifyUid of mutation.go: rejects a uid strictly greater than
maxLeaseId + 10000.  The Go addition is on uint64, so the sum is reduced
modulo 2^64.  none means the uid passed validation; some carries the
error message. -/
def verifyUid (maxLeaseId uid : Nat) : Option String :=
  if uid > (maxLeaseId + 10000) % 2 ^ 64 then
    some ("Uid: [" ++ toString uid ++ "] cannot be greater than lease: ["
      ++ toString maxLeaseId ++ "]")
  else
    none

/-- The blank-node map built by AssignUids (Go map[string]uint64),
modelled as an association list in insertion order.  Go map iteration
order is unspecified; insertion order is one admissible enumeration and
the properties proved below are order-independent. -/
abbrev UidMap : Type := List (String × Nat)

/-- Membership test for a key in the uid map. -/
def UidMap.hasKey (m : UidMap) (k : String) : Bool :=
  m.any (fun p => p.1 = k)

/-- newUids[k] = 0 on a Go map: a fresh key is appended with value 0, an
existing key keeps its (already zero) value. -/
def UidMap.insertZero (m : UidMap) (k : String) : UidMap :=
  if m.hasKey k then m else m ++ [(k, 0)]

/-- strings.HasPrefix(ref, blank-node marker): the reference starts
with the two characters of the blank-node marker.  Stated over the
character list so that it evaluates definitionally on literals. -/
def isBlankRef (s : String) : Bool :=
  match s.data with
  | c₁ :: c₂ :: _ => c₁ == Char.ofNat 95 && c₂ == Char.ofNat 58
  | _ => false

/-- Environment of AssignUids: the gql uid parser for concrete subject
and object references, and the lease ceiling worker.MaxLeaseId() read by
verifyUid. -/
structure AUEnv where
  parseUid : String → Except String Nat
  maxLeaseId : Nat

/-- One subject or object reference inside the AssignUids loop: an empty
reference is ignored; a blank-node label (prefix "_:") is recorded in
the map and leaves the local uid variable at 0; any other reference is
parsed as a concrete uid; in both non-empty cases verifyUid then runs on
the local uid (0 for the blank-label branch, as in the Go code). -/
def processRef (env : AUEnv) (m : UidMap) (ref : String) :
    Except String UidMap :=
  if ref.length = 0 then .ok m
  else
    let step : Except String (Nat × UidMap) :=
      if isBlankRef ref then .ok (0, m.insertZero ref)
      else
        match env.parseUid ref with
        | .error e => .error e
        | .ok uid => .ok (uid, m)
    match step with
    | .error e => .error e
    | .ok (uid, m₁) =>
      match verifyUid env.maxLeaseId uid with
      | some e => .error e
      | none => .ok m₁

/-- One nquad of the AssignUids scan: the administrative delete-all
shape (subject "*", default-value object "*") is skipped; otherwise the
subject and then the objectId reference are processed. -/
def processNQ (env : AUEnv) (m : UidMap) (nq : NQuad) :
    Except String UidMap :=
  if nq.subject = xStar ∧ nq.objectDefaultVal = xStar then .ok m
  else
    match processRef env m nq.subject with
    | .error e => .error e
    | .ok m₁ => processRef env m₁ nq.objectId

/-- The scan phase of AssignUids: fold processNQ over the statement
list, starting from an accumulated map. -/
def collectUids (env : AUEnv) : UidMap → List NQuad → Except String UidMap
  | m, [] => .ok m
  | m, nq :: rest =>
    match processNQ env m nq with
    | .error e => .error e
    | .ok m₁ => collectUids env m₁ rest

/-- The assignment phase of AssignUids: enumerate the map, handing out
consecutive ids from curId.  The Go x.AssertTruef(curId != 0 and
curId <= res.EndId) is modelled as the error outcome "not enough uids
generated" (assertion failure aborts the request). -/
def assignLoop : UidMap → Nat → Nat → Except String UidMap
  | [], _, _ => .ok []
  | (k, _) :: rest, curId, endId =>
    if curId ≠ 0 ∧ curId ≤ endId then
      match assignLoop rest (curId + 1) endId with
      | .error e => .error e
      | .ok rest₁ => .ok ((k, curId) :: rest₁)
    else .error "not enough uids generated"

/-- AssignUids of mutation.go: scan the statements for blank-node
labels (validating concrete uids on the way), and when the map is
non-empty request exactly one contiguous block from the lease authority
(alloc count = ok (StartId, EndId)) and assign consecutive ids. -/
def AssignUids (env : AUEnv) (alloc : Nat → Except String (Nat × Nat))
    (nquads : List NQuad) : Except String UidMap :=
  match collectUids env [] nquads with
  | .error e => .error e
  | .ok m =>
    if m.length > 0 then
      match alloc m.length with
      | .error e => .error e
      | .ok (startId, endId) => assignLoop m startId endId
    else .ok m

/-- Environment of ToInternal: facets.SortAndValidate (its error
outcome; the in-place canonical sort is absorbed into the abstract edge
builder) and gql.NQuad.ToEdgeUsing, the external edge builder resolving
an nquad against the blank-node map. -/
structure TIEnv where
  sortAndValidate : List (String × String) → Except String Unit
  toEdgeUsing : NQuad → UidMap → Except String DirectedEdge

/-- The parse closure of ToInternal: an empty subject is silently
skipped (contributes no edge); otherwise the external edge builder runs
and its edge is stamped with the operation kind of the originating
list.  Returns the list (empty or singleton) of edges contributed. -/
def parseNQ (env : TIEnv) (m : UidMap) (o : EdgeOp) (nq : NQuad) :
    Except String (List DirectedEdge) :=
  if nq.subject.length = 0 then .ok []
  else
    match env.toEdgeUsing nq m with
    | .error e => .error e
    | .ok edge => .ok [{ edge with op := o }]

/-- The Set loop of ToInternal: per statement, facet validation then
parse; on error the edges accumulated so far are returned together with
the error (Go returns the partial slice). -/
def setLoop (env : TIEnv) (m : UidMap) :
    List NQuad → List DirectedEdge × Option String
  | [] => ([], none)
  | nq :: rest =>
    match env.sortAndValidate nq.facets with
    | .error e => ([], some e)
    | .ok _ =>
      match parseNQ env m .SET nq with
      | .error e => ([], some e)
      | .ok es =>
        let tail := setLoop env m rest
        (es ++ tail.1, tail.2)

/-- The Del loop of ToInternal: a statement whose subject is the
universal wildcard and whose object is the default-value wildcard is
rejected with the alter error; every other statement is parsed with
operation kind DEL. -/
def delLoop (env : TIEnv) (m : UidMap) :
    List NQuad → List DirectedEdge × Option String
  | [] => ([], none)
  | nq :: rest =>
    if nq.subject = xStar ∧ nq.objectDefaultVal = xStar then
      ([], some "Predicate deletion should be called via alter.")
    else
      match parseNQ env m .DEL nq with
      | .error e => ([], some e)
      | .ok es =>
        let tail := delLoop env m rest
        (es ++ tail.1, tail.2)

/-- A gql.Mutation: the ordered Set list and the ordered Del list. -/
structure GMutation where
  set : List NQuad
  del : List NQuad

/-- ToInternal of mutation.go: translate the Set list, then the Del
list; the accumulated edge list is returned in both the success and the
error case (partial results accompany the error). -/
def ToInternal (env : TIEnv) (gmu : GMutation) (m : UidMap) :
    List DirectedEdge × Option String :=
  let se := setLoop env m gmu.set
  match se.2 with
  | some e => (se.1, some e)
  | none =>
    let de := delLoop env m gmu.del
    (se.1 ++ de.1, de.2)

/-- The edge an input-list statement is translated to: the external
builder result with the operation kind of its originating list stamped
on.  Used to state order preservation of ToInternal. -/
def stampedEdge (env : TIEnv) (m : UidMap) (o : EdgeOp) (nq : NQuad) :
    Except String DirectedEdge :=
  match env.toEdgeUsing nq m with
  | .error e => .error e
  | .ok edge => .ok { edge with op := o }

/-- Environment of expandEdges: getNodePredicates (the value matrix of
the predicate-set read for an entity at the read timestamp), the schema
registry reverse-index flag, and the posting-list adjacency read
(pred, entity, readTs). -/
structure ExpEnv where
  nodePreds : Nat → Nat → Except String (List (List String))
  isReversed : String → Bool
  adjacency : String → Nat → Nat → Except String (List Nat)

/-- The internal bookkeeping edge recording that the entity no longer
claims the predicate: only Op, Entity, Attr and Value are set. -/
def bookkeepingEdge (o : EdgeOp) (ent : Nat) (pred : String) :
    DirectedEdge :=
  { op := o, entity := ent, attr := "_predicate_", value := pred,
    valueId := 0, label := "", lang := "", facets := [] }

/-- The reverse-bookkeeping edge emitted per reverse target: value is
the predicate name prefixed with "~". -/
def reverseEdge (o : EdgeOp) (obj : Nat) (pred : String) :
    DirectedEdge :=
  { op := o, entity := obj, attr := "_predicate_", value := "~" ++ pred,
    valueId := 0, label := "", lang := "", facets := [] }

/-- The per-predicate body of expandEdges: the input edge narrowed to
the concrete predicate (a struct copy with only Attr replaced), the
bookkeeping edge, and — when the schema marks the predicate reversed —
one reverse-bookkeeping edge per target, the targets being the edge
ValueId when the object is concrete and the stored adjacency list when
the object is the wildcard. -/
def expandPred (env : ExpEnv) (startTs : Nat) (edge : DirectedEdge)
    (pred : String) : Except String (List DirectedEdge) :=
  let base := [{ edge with attr := pred },
    bookkeepingEdge edge.op edge.entity pred]
  if ¬ env.isReversed pred then .ok base
  else if edge.value ≠ xStar then
    .ok (base ++ [reverseEdge edge.op edge.valueId pred])
  else
    match env.adjacency pred edge.entity startTs with
    | .error e => .error e
    | .ok objs => .ok (base ++ objs.map (fun obj => reverseEdge edge.op obj pred))

/-- Fold expandPred over the resolved predicate list of one edge. -/
def expandPreds (env : ExpEnv) (startTs : Nat) (edge : DirectedEdge) :
    List String → Except String (List DirectedEdge)
  | [] => .ok []
  | p :: ps =>
    match expandPred env startTs edge p with
    | .error e => .error e
    | .ok hd =>
      match expandPreds env startTs edge ps with
      | .error e => .error e
      | .ok tl => .ok (hd ++ tl)

/-- One edge of expandEdges: the S-wildcard P wildcard-object delete
(Op = DEL, Entity = 0, Value = "*") is passed through unexpanded; an
explicit predicate stands alone; the predicate wildcard resolves the
live predicate set of the entity, requiring exactly one list in the
value matrix and keeping the non-empty values. -/
def expandOne (env : ExpEnv) (startTs : Nat) (edge : DirectedEdge) :
    Except String (List DirectedEdge) :=
  if edge.op = EdgeOp.DEL ∧ edge.entity = 0 ∧ edge.value = xStar then
    .ok [edge]
  else
    let predsE : Except String (List String) :=
      if edge.attr ≠ xStar then .ok [edge.attr]
      else
        match env.nodePreds edge.entity startTs with
        | .error e => .error e
        | .ok valMatrix =>
          match valMatrix with
          | [vals] => .ok (vals.filter (fun v => v.length > 0))
          | _ => .error "Expected only one list in value matrix while deleting"
    match predsE with
    | .error e => .error e
    | .ok preds => expandPreds env startTs edge preds

/-- expandEdges of mutation.go over the edge list of a mutation. -/
def expandEdges (env : ExpEnv) (startTs : Nat) :
    List DirectedEdge → Except String (List DirectedEdge)
  | [] => .ok []
  | edge :: rest =>
    match expandOne env startTs edge with
    | .error e => .error e
    | .ok hd =>
      match expandEdges env startTs rest with
      | .error e => .error e
      | .ok tl => .ok (hd ++ tl)

/-- protos.Mutations, restricted to the fields the translated code
reads: the edge list and the read timestamp StartTs. -/
structure Mutations where
  edges : List DirectedEdge
  startTs : Nat

/-- ApplyMutations of mutation.go, abstracted over the commit call
worker.MutateOverNetwork (returning an opaque transaction context τ):
with the expand_edge gate on, the edge list is replaced by its
expansion; with the gate off, any edge whose Attr is the wildcard
marker is rejected before the commit call. -/
def ApplyMutations {τ : Type} (expandEdgeCfg : Bool) (env : ExpEnv)
    (commit : List DirectedEdge → Nat → Except String τ)
    (m : Mutations) : Except String τ :=
  if expandEdgeCfg then
    match expandEdges env m.startTs m.edges with
    | .error e => .error ("While adding internal edges: " ++ e)
    | .ok edges => commit edges m.startTs
  else if m.edges.any (fun mu => mu.attr = xStar) then
    .error "Expand edge (--expand_edge) is set to false. Cannot perform S * * deletion."
  else commit m.edges m.startTs

/-- Spec-side description of translation used to state order
preservation: each statement of a list is translated by the external
edge builder and stamped with the operation kind of the list, in input
order. -/
def orderedEdges (env : TIEnv) (m : UidMap) (o : EdgeOp) :
    List NQuad → Except String (List DirectedEdge)
  | [] => .ok []
  | nq :: rest =>
    match stampedEdge env m o nq with
    | .error e => .error e
    | .ok e =>
      match orderedEdges env m o rest with
      | .error e₂ => .error e₂
      | .ok es => .ok (e :: es)

/-- A fixed fully-resolved edge returned by the concrete edge builder
of the examples below. -/
def cedge : DirectedEdge :=
  { op := EdgeOp.SET, entity := 1, attr := "p", value := "v",
    valueId := 0, label := "", lang := "", facets := [] }

/-- A concrete translation environment whose facet validator always
accepts and whose edge builder always returns cedge. -/
def cenvTI : TIEnv :=
  { sortAndValidate := fun _ => .ok ()
    toEdgeUsing := fun _ _ => .ok cedge }

/-- The administrative delete-all shape: universal-wildcard subject and
default-value wildcard object. -/
def shapeNQ : NQuad :=
  { subject := "*", predicate := "p", objectId := "",
    objectDefaultVal := "*", facets := [] }

/-- A statement with an empty subject (the defensively skipped case). -/
def emptyNQ : NQuad :=
  { subject := "", predicate := "p", objectId := "",
    objectDefaultVal := "", facets := [] }

/-- An ordinary statement with a concrete subject. -/
def plainNQ : NQuad :=
  { subject := "a", predicate := "p", objectId := "",
    objectDefaultVal := "", facets := [] }

/-- The wildcard-predicate delete edge S * * against entity 1. -/
def wildDel : DirectedEdge :=
  { op := EdgeOp.DEL, entity := 1, attr := "*", value := "*",
    valueId := 0, label := "", lang := "", facets := [] }

/-- A concrete expansion environment for an entity with no live
predicates. -/
def envNoPreds : ExpEnv :=
  { nodePreds := fun _ _ => .ok [[]]
    isReversed := fun _ => false
    adjacency := fun _ _ _ => .ok [] }

/-- A concrete expansion environment with live predicates p1 and p2,
p1 reverse-indexed with stored targets 7 and 8, p2 not reversed. -/
def envFanout : ExpEnv :=
  { nodePreds := fun _ _ => .ok [["p1", "p2"]]
    isReversed := fun p => p == "p1"
    adjacency := fun _ _ _ => .ok [7, 8] }

/-- A commit call that always succeeds, for the orchestrator examples. -/
def okCommit : List DirectedEdge → Nat → Except String Unit :=
  fun _ _ => .ok ()

/-- A concrete allocation environment for the AssignUids examples. -/
def envAU : AUEnv :=
  { parseUid := fun _ => .error "parse error"
    maxLeaseId := 1000 }

/-- A statement whose subject is a blank-node label. -/
def nqBlankA : NQuad :=
  { subject := "_:a", predicate := "p", objectId := "",
    objectDefaultVal := "", facets := [] }

/-- A statement whose object reference is a blank-node label. -/
def nqBlankB : NQuad :=
  { subject := "", predicate := "p", objectId := "_:b",
    objectDefaultVal := "", facets := [] }

end Mutation

namespace Mutation

/-- C3 counterexample: with the lease ceiling at the top of the uint64
range, the Go addition maxLeaseId + 10000 wraps around, so a uid equal
to the ceiling itself (hence at most ceiling + margin) is rejected,
contradicting the claim that every uid at most ceiling + 10000 passes
validation. -/
theorem verifyUid_overflow_cex :
    verifyUid (2 ^ 64 - 1) (2 ^ 64 - 1) ≠ none ∧
      (2 ^ 64 - 1 : Nat) ≤ (2 ^ 64 - 1) + 10000 := by
  constructor
  · decide
  · exact Nat.le_add_right _ _

/-- C3 amended: for every lease ceiling whose margin-extended bound does
not overflow uint64 (maxLeaseId + 10000 < 2^64), validation succeeds
exactly on uids at most maxLeaseId + 10000; in particular
maxLeaseId + 10000 passes and maxLeaseId + 10001 fails. -/
theorem verifyUid_margin_boundary (maxLeaseId uid : Nat)
    (h : maxLeaseId + 10000 < 2 ^ 64) :
    (verifyUid maxLeaseId uid = none ↔ uid ≤ maxLeaseId + 10000) := by
  unfold verifyUid
  rw [Nat.mod_eq_of_lt h]
  by_cases hgt : uid > maxLeaseId + 10000
  · rw [if_pos hgt]
    simp
    omega
  · rw [if_neg hgt]
    simp
    omega

/-- C3 witness: the boundary theorem applied at ceiling 100 and uid
10100 = ceiling + margin. -/
theorem verifyUid_margin_boundary_witness :
    (100 + 10000 < 2 ^ 64) ∧
      (verifyUid 100 10100 = none ↔ 10100 ≤ 100 + 10000) :=
  ⟨by decide, verifyUid_margin_boundary 100 10100 (by decide)⟩

/-- Helper: the Del loop distributes over an append whose prefix
processes without error. -/
theorem delLoop_append (env : TIEnv) (m : UidMap) (pre rest : List NQuad)
    (h : (delLoop env m pre).2 = none) :
    delLoop env m (pre ++ rest) =
      ((delLoop env m pre).1 ++ (delLoop env m rest).1,
        (delLoop env m rest).2) := by
  induction pre with
  | nil => simp [delLoop]
  | cons nq tl ih =>
    by_cases hsh : nq.subject = xStar ∧ nq.objectDefaultVal = xStar
    · simp [delLoop, hsh] at h
    · cases hp : parseNQ env m .DEL nq with
      | error e => simp [delLoop, hsh, hp] at h
      | ok es =>
        simp only [delLoop, List.cons_append, List.append_eq, if_neg hsh,
          hp] at h ⊢
        rw [ih h]
        simp [List.append_assoc]

/-- C1: a delete-list statement with universal-wildcard subject and
default-value wildcard object makes ToInternal return the
"Predicate deletion should be called via alter." error, and the
returned edges are exactly those of the Set list and of the delete
statements before it — no edge is produced for that statement. -/
theorem ToInternal_del_admin_shape_rejected (env : TIEnv) (m : UidMap)
    (sets pre post : List NQuad) (nq : NQuad)
    (hS : (setLoop env m sets).2 = none)
    (hpre : (delLoop env m pre).2 = none)
    (hsub : nq.subject = xStar) (hobj : nq.objectDefaultVal = xStar) :
    ToInternal env ⟨sets, pre ++ nq :: post⟩ m =
      ((setLoop env m sets).1 ++ (delLoop env m pre).1,
        some "Predicate deletion should be called via alter.") := by
  have hd := delLoop_append env m pre (nq :: post) hpre
  have hnq : delLoop env m (nq :: post) =
      ([], some "Predicate deletion should be called via alter.") := by
    simp [delLoop, hsub, hobj]
  rw [hnq] at hd
  simp [ToInternal, hS, hd]

/-- C1 witness: the rejection theorem applied to a mutation whose
delete list is exactly the administrative shape. -/
theorem ToInternal_del_admin_shape_rejected_witness :
    (setLoop cenvTI [] []).2 = none ∧ (delLoop cenvTI [] []).2 = none ∧
      shapeNQ.subject = xStar ∧ shapeNQ.objectDefaultVal = xStar ∧
      ToInternal cenvTI ⟨[], [] ++ shapeNQ :: []⟩ [] =
        ((setLoop cenvTI [] []).1 ++ (delLoop cenvTI [] []).1,
          some "Predicate deletion should be called via alter.") :=
  ⟨rfl, rfl, rfl, rfl,
    ToInternal_del_admin_shape_rejected cenvTI [] [] [] [] shapeNQ
      rfl rfl rfl rfl⟩

/-- C2 counterexample: the administrative shape submitted via Set is
translated to an edge (not rejected), while the identical shape
submitted via Delete is rejected with the alter error (not passed
through) — the claim has the two lists swapped. -/
theorem ToInternal_set_vs_del_shape_cex :
    ToInternal cenvTI ⟨[shapeNQ], []⟩ [] =
        ([{ cedge with op := EdgeOp.SET }], none) ∧
      ToInternal cenvTI ⟨[], [shapeNQ]⟩ [] =
        ([], some "Predicate deletion should be called via alter.") :=
  ⟨rfl, rfl⟩

/-- C2 amended: a statement with universal-wildcard subject and
default-value wildcard object submitted via Delete is rejected before
any edge is produced for it, while the identical shape submitted via
Set is passed through ordinary translation (an edge is produced when
facet validation and edge resolution succeed) rather than rejected. -/
theorem ToInternal_admin_shape_set_vs_del (env : TIEnv) (m : UidMap)
    (nq : NQuad) (e : DirectedEdge)
    (hsub : nq.subject = xStar) (hobj : nq.objectDefaultVal = xStar)
    (hf : env.sortAndValidate nq.facets = .ok ())
    (he : env.toEdgeUsing nq m = .ok e) :
    ToInternal env ⟨[nq], []⟩ m = ([{ e with op := EdgeOp.SET }], none) ∧
      ToInternal env ⟨[], [nq]⟩ m =
        ([], some "Predicate deletion should be called via alter.") := by
  constructor
  · have hlen : ¬ nq.subject.length = 0 := by rw [hsub]; decide
    simp [ToInternal, setLoop, delLoop, parseNQ, hf, he, hlen]
  · simp [ToInternal, setLoop, delLoop, hsub, hobj]

/-- C2 witness: the amended theorem applied to the concrete shape and
the concrete translation environment. -/
theorem ToInternal_admin_shape_set_vs_del_witness :
    shapeNQ.subject = xStar ∧ shapeNQ.objectDefaultVal = xStar ∧
      cenvTI.sortAndValidate shapeNQ.facets = .ok () ∧
      cenvTI.toEdgeUsing shapeNQ [] = .ok cedge ∧
      (ToInternal cenvTI ⟨[shapeNQ], []⟩ [] =
          ([{ cedge with op := EdgeOp.SET }], none) ∧
        ToInternal cenvTI ⟨[], [shapeNQ]⟩ [] =
          ([], some "Predicate deletion should be called via alter.")) :=
  ⟨rfl, rfl, rfl, rfl,
    ToInternal_admin_shape_set_vs_del cenvTI [] shapeNQ cedge
      rfl rfl rfl rfl⟩

/-- Helper: orderedEdges yields one edge per input statement. -/
theorem orderedEdges_length (env : TIEnv) (m : UidMap) (o : EdgeOp)
    (l : List NQuad) (es : List DirectedEdge)
    (h : orderedEdges env m o l = .ok es) : es.length = l.length := by
  induction l generalizing es with
  | nil =>
    simp [orderedEdges] at h
    simp [← h]
  | cons nq tl ih =>
    cases hs : stampedEdge env m o nq with
    | error e => simp [orderedEdges, hs] at h
    | ok e =>
      cases ht : orderedEdges env m o tl with
      | error e₂ => simp [orderedEdges, hs, ht] at h
      | ok tl₁ =>
        simp [orderedEdges, hs, ht] at h
        simp [← h, ih tl₁ ht]

/-- Helper: every edge produced by orderedEdges carries the operation
kind of its list. -/
theorem orderedEdges_op (env : TIEnv) (m : UidMap) (o : EdgeOp)
    (l : List NQuad) (es : List DirectedEdge)
    (h : orderedEdges env m o l = .ok es) :
    ∀ e ∈ es, e.op = o := by
  induction l generalizing es with
  | nil =>
    simp [orderedEdges] at h
    subst h
    simp
  | cons nq tl ih =>
    cases hs : stampedEdge env m o nq with
    | error e => simp [orderedEdges, hs] at h
    | ok e =>
      cases ht : orderedEdges env m o tl with
      | error e₂ => simp [orderedEdges, hs, ht] at h
      | ok tl₁ =>
        simp [orderedEdges, hs, ht] at h
        subst h
        intro e₁ he₁
        rcases List.mem_cons.mp he₁ with h1 | h2
        · subst h1
          unfold stampedEdge at hs
          cases hb : env.toEdgeUsing nq m with
          | error er => rw [hb] at hs; exact absurd hs (by simp)
          | ok eb =>
            rw [hb] at hs
            simp at hs
            rw [← hs]
        · exact ih tl₁ ht e₁ h2

/-- Helper: an error-free run of the Set loop produces exactly the
ordered translation of the statements with a non-empty subject. -/
theorem setLoop_ok_orderedEdges (env : TIEnv) (m : UidMap)
    (ss : List NQuad) (h : (setLoop env m ss).2 = none) :
    orderedEdges env m .SET
        (ss.filter (fun nq => nq.subject.length != 0)) =
      .ok (setLoop env m ss).1 := by
  induction ss with
  | nil => simp [setLoop, orderedEdges]
  | cons nq tl ih =>
    cases hf : env.sortAndValidate nq.facets with
    | error e => simp [setLoop, hf] at h
    | ok u =>
      cases hp : parseNQ env m .SET nq with
      | error e => simp [setLoop, hf, hp] at h
      | ok es =>
        have h₂ : (setLoop env m tl).2 = none := by
          simp [setLoop, hf, hp] at h
          exact h
        by_cases hs : nq.subject.length = 0
        · have hes : es = [] := by
            simp [parseNQ, hs] at hp
            exact hp
          simp [List.filter_cons, hs, setLoop, hf, hp, hes, ih h₂]
        · cases he : env.toEdgeUsing nq m with
          | error e => simp [parseNQ, if_neg hs, he] at hp
          | ok edge =>
            have hes : es = [{ edge with op := EdgeOp.SET }] := by
              simp [parseNQ, if_neg hs, he] at hp
              exact hp.symm
            simp [List.filter_cons, hs, orderedEdges, stampedEdge, he,
              ih h₂, setLoop, hf, hp, hes]

/-- Helper: an error-free run of the Del loop produces exactly the
ordered translation of the statements with a non-empty subject. -/
theorem delLoop_ok_orderedEdges (env : TIEnv) (m : UidMap)
    (ds : List NQuad) (h : (delLoop env m ds).2 = none) :
    orderedEdges env m .DEL
        (ds.filter (fun nq => nq.subject.length != 0)) =
      .ok (delLoop env m ds).1 := by
  induction ds with
  | nil => simp [delLoop, orderedEdges]
  | cons nq tl ih =>
    by_cases hsh : nq.subject = xStar ∧ nq.objectDefaultVal = xStar
    · simp [delLoop, hsh] at h
    · cases hp : parseNQ env m .DEL nq with
      | error e => simp [delLoop, if_neg hsh, hp] at h
      | ok es =>
        have h₂ : (delLoop env m tl).2 = none := by
          simp [delLoop, if_neg hsh, hp] at h
          exact h
        by_cases hs : nq.subject.length = 0
        · have hes : es = [] := by
            simp [parseNQ, hs] at hp
            exact hp
          simp [List.filter_cons, hs, delLoop, if_neg hsh, hp, hes, ih h₂]
        · cases he : env.toEdgeUsing nq m with
          | error e => simp [parseNQ, if_neg hs, he] at hp
          | ok edge =>
            have hes : es = [{ edge with op := EdgeOp.DEL }] := by
              simp [parseNQ, if_neg hs, he] at hp
              exact hp.symm
            simp [List.filter_cons, hs, orderedEdges, stampedEdge, he,
              ih h₂, delLoop, if_neg hsh, hp, hes]

/-- C9 counterexample: a statement list of length 1 whose single
statement has an empty subject translates without error to 0 edges, not
1 — the empty-subject statement is silently skipped, so an error-free
translation of N statements need not yield N edges. -/
theorem ToInternal_empty_subject_cex :
    ToInternal cenvTI ⟨[emptyNQ], []⟩ [] = ([], none) ∧
      (0 ≠ [emptyNQ].length + ([] : List NQuad).length) :=
  ⟨rfl, by decide⟩

/-- C9 amended: an error-free translation of a statement list yields
one edge per statement with a non-empty subject (empty-subject
statements are silently skipped), in the same relative order as the
input, with all Set-list edges (stamped SET) preceding all Del-list
edges (stamped DEL). -/
theorem ToInternal_order_preservation (env : TIEnv) (m : UidMap)
    (gmu : GMutation) (edges : List DirectedEdge)
    (h : ToInternal env gmu m = (edges, none)) :
    ∃ se de,
      orderedEdges env m .SET
          (gmu.set.filter (fun nq => nq.subject.length != 0)) = .ok se ∧
        orderedEdges env m .DEL
          (gmu.del.filter (fun nq => nq.subject.length != 0)) = .ok de ∧
        edges = se ++ de ∧
        se.length =
          (gmu.set.filter (fun nq => nq.subject.length != 0)).length ∧
        de.length =
          (gmu.del.filter (fun nq => nq.subject.length != 0)).length ∧
        (∀ e ∈ se, e.op = EdgeOp.SET) ∧ (∀ e ∈ de, e.op = EdgeOp.DEL) := by
  cases hS : (setLoop env m gmu.set).2 with
  | some e =>
    simp [ToInternal, hS] at h
  | none =>
    have hD : (delLoop env m gmu.del).2 = none := by
      simp [ToInternal, hS] at h
      exact h.2
    have hE : edges = (setLoop env m gmu.set).1 ++ (delLoop env m gmu.del).1 := by
      simp [ToInternal, hS] at h
      exact h.1.symm
    refine ⟨(setLoop env m gmu.set).1, (delLoop env m gmu.del).1,
      setLoop_ok_orderedEdges env m gmu.set hS,
      delLoop_ok_orderedEdges env m gmu.del hD, hE,
      orderedEdges_length env m .SET _ _
        (setLoop_ok_orderedEdges env m gmu.set hS),
      orderedEdges_length env m .DEL _ _
        (delLoop_ok_orderedEdges env m gmu.del hD),
      orderedEdges_op env m .SET _ _
        (setLoop_ok_orderedEdges env m gmu.set hS),
      orderedEdges_op env m .DEL _ _
        (delLoop_ok_orderedEdges env m gmu.del hD)⟩

/-- C9 witness: the order-preservation theorem applied to a concrete
mutation with one Set statement and one Del statement. -/
theorem ToInternal_order_preservation_witness :
    ToInternal cenvTI ⟨[plainNQ], [plainNQ]⟩ [] =
        ([{ cedge with op := EdgeOp.SET },
          { cedge with op := EdgeOp.DEL }], none) ∧
      (∃ se de,
        orderedEdges cenvTI [] .SET
            (([plainNQ]).filter (fun nq => nq.subject.length != 0)) =
          .ok se ∧
        orderedEdges cenvTI [] .DEL
            (([plainNQ]).filter (fun nq => nq.subject.length != 0)) =
          .ok de ∧
        ({ cedge with op := EdgeOp.SET } ::
            [{ cedge with op := EdgeOp.DEL }]) = se ++ de ∧
        se.length =
          (([plainNQ]).filter (fun nq => nq.subject.length != 0)).length ∧
        de.length =
          (([plainNQ]).filter (fun nq => nq.subject.length != 0)).length ∧
        (∀ e ∈ se, e.op = EdgeOp.SET) ∧ (∀ e ∈ de, e.op = EdgeOp.DEL)) :=
  ⟨rfl, ToInternal_order_preservation cenvTI [] ⟨[plainNQ], [plainNQ]⟩
    [{ cedge with op := EdgeOp.SET }, { cedge with op := EdgeOp.DEL }] rfl⟩

/-- C4: expanding one wildcard-predicate delete edge (wildcard object)
against an entity whose live predicate set is [p1, p2], p1
reverse-indexed and p2 not, yields exactly: the delete edge narrowed to
p1, the bookkeeping edge for p1, one reverse-bookkeeping edge per
stored target of p1, the delete edge narrowed to p2, and the
bookkeeping edge for p2 — no reverse-bookkeeping edge for p2. -/
theorem expandEdges_fanout (env : ExpEnv) (ts : Nat)
    (edge : DirectedEdge) (p1 p2 : String) (us : List Nat)
    (hattr : edge.attr = xStar) (hval : edge.value = xStar)
    (hent : edge.entity ≠ 0)
    (hl1 : 0 < p1.length) (hl2 : 0 < p2.length)
    (hm : env.nodePreds edge.entity ts = .ok [[p1, p2]])
    (hr1 : env.isReversed p1 = true) (hr2 : env.isReversed p2 = false)
    (ha : env.adjacency p1 edge.entity ts = .ok us) :
    expandEdges env ts [edge] = .ok
      ([{ edge with attr := p1 }, bookkeepingEdge edge.op edge.entity p1]
        ++ us.map (fun obj => reverseEdge edge.op obj p1)
        ++ [{ edge with attr := p2 },
            bookkeepingEdge edge.op edge.entity p2]) := by
  have hone : expandOne env ts edge = expandPreds env ts edge [p1, p2] := by
    simp [expandOne, hattr, hent, hm, List.filter_cons, hl1, hl2]
  simp [expandEdges, hone, expandPreds, expandPred, hattr, hval, hr1,
    hr2, ha]

/-- C4 witness: the fan-out theorem at entity 1 with live predicates
p1 (reversed, stored targets 7 and 8) and p2 (not reversed). -/
theorem expandEdges_fanout_witness :
    wildDel.attr = xStar ∧ wildDel.value = xStar ∧ wildDel.entity ≠ 0 ∧
      envFanout.nodePreds wildDel.entity 5 = .ok [["p1", "p2"]] ∧
      envFanout.isReversed "p1" = true ∧
      envFanout.isReversed "p2" = false ∧
      envFanout.adjacency "p1" wildDel.entity 5 = .ok [7, 8] ∧
      expandEdges envFanout 5 [wildDel] = .ok
        ([{ wildDel with attr := "p1" },
          bookkeepingEdge wildDel.op wildDel.entity "p1"]
          ++ ([7, 8]).map (fun obj => reverseEdge wildDel.op obj "p1")
          ++ [{ wildDel with attr := "p2" },
              bookkeepingEdge wildDel.op wildDel.entity "p2"]) :=
  ⟨rfl, rfl, by decide, rfl, rfl, rfl, rfl,
    expandEdges_fanout envFanout 5 wildDel "p1" "p2" [7, 8]
      rfl rfl (by decide) (by decide) (by decide) rfl rfl rfl rfl⟩

/-- C5 counterexample: one wildcard-predicate delete edge against an
entity with zero live predicates expands without error to zero edges —
expansion does not strictly increase the edge count on every input. -/
theorem expandEdges_no_strict_increase_cex :
    expandEdges envNoPreds 0 [wildDel] = .ok [] ∧
      ([] : List DirectedEdge).length < [wildDel].length :=
  ⟨rfl, by decide⟩

/-- Helper: each per-predicate expansion contributes at least the
narrowed edge and the bookkeeping edge. -/
theorem expandPred_two_le_length (env : ExpEnv) (ts : Nat)
    (edge : DirectedEdge) (p : String) (l : List DirectedEdge)
    (h : expandPred env ts edge p = .ok l) : 2 ≤ l.length := by
  unfold expandPred at h
  split at h
  · simp at h
    simp [← h]
  · split at h
    · simp at h
      simp [← h]
    · cases ha : env.adjacency p edge.entity ts with
      | error e => rw [ha] at h; exact absurd h (by simp)
      | ok objs =>
        rw [ha] at h
        simp at h
        simp [← h]

/-- Helper: expanding a predicate list yields at least two edges per
predicate. -/
theorem expandPreds_length (env : ExpEnv) (ts : Nat)
    (edge : DirectedEdge) (ps : List String) (l : List DirectedEdge)
    (h : expandPreds env ts edge ps = .ok l) :
    2 * ps.length ≤ l.length := by
  induction ps generalizing l with
  | nil =>
    simp [expandPreds] at h
    simp [← h]
  | cons p tl ih =>
    unfold expandPreds at h
    cases hp : expandPred env ts edge p with
    | error e => rw [hp] at h; exact absurd h (by simp)
    | ok hd =>
      rw [hp] at h
      cases ht : expandPreds env ts edge tl with
      | error e => rw [ht] at h; exact absurd h (by simp)
      | ok tl₁ =>
        rw [ht] at h
        simp at h
        have h2 := expandPred_two_le_length env ts edge p hd hp
        have h3 := ih tl₁ ht
        simp [← h]
        omega

/-- C5 amended: expanding a single wildcard-predicate delete edge
against an entity with K live predicates yields at least 2K edges
(more with reverse fan-out) and never fewer than K; when K is at least
1 the edge count strictly increases.  With zero live predicates the
expansion can shrink the list (see the counterexample), so the strict
increase needs K at least 1. -/
theorem expandEdges_wildcard_count (env : ExpEnv) (ts : Nat)
    (edge : DirectedEdge) (vals : List String) (out : List DirectedEdge)
    (hattr : edge.attr = xStar) (hent : edge.entity ≠ 0)
    (hm : env.nodePreds edge.entity ts = .ok [vals])
    (h : expandEdges env ts [edge] = .ok out) :
    2 * (vals.filter (fun v => v.length > 0)).length ≤ out.length ∧
      (vals.filter (fun v => v.length > 0)).length ≤ out.length ∧
      (1 ≤ (vals.filter (fun v => v.length > 0)).length →
        List.length [edge] < out.length) := by
  have hone : expandOne env ts edge =
      expandPreds env ts edge (vals.filter (fun v => v.length > 0)) := by
    simp [expandOne, hattr, hent, hm]
  rw [show expandEdges env ts [edge] =
      (match expandOne env ts edge with
        | .error e => .error e
        | .ok hd =>
          match expandEdges env ts [] with
          | .error e => .error e
          | .ok tl => .ok (hd ++ tl)) from rfl, hone] at h
  cases hx : expandPreds env ts edge
      (vals.filter (fun v => v.length > 0)) with
  | error e => rw [hx] at h; exact absurd h (by simp)
  | ok hd =>
    rw [hx] at h
    simp [expandEdges] at h
    have hlen := expandPreds_length env ts edge _ hd hx
    constructor
    · rw [← h]
      exact hlen
    constructor
    · rw [← h]
      omega
    · intro hk
      rw [← h]
      simp
      omega

/-- C5 witness: the count theorem at the concrete fan-out environment
(K = 2 live predicates, output 6 edges from 1 input edge). -/
theorem expandEdges_wildcard_count_witness :
    wildDel.attr = xStar ∧ wildDel.entity ≠ 0 ∧
      envFanout.nodePreds wildDel.entity 5 = .ok [["p1", "p2"]] ∧
      expandEdges envFanout 5 [wildDel] = .ok
        [{ wildDel with attr := "p1" },
          bookkeepingEdge EdgeOp.DEL 1 "p1",
          reverseEdge EdgeOp.DEL 7 "p1", reverseEdge EdgeOp.DEL 8 "p1",
          { wildDel with attr := "p2" },
          bookkeepingEdge EdgeOp.DEL 1 "p2"] ∧
      (2 * ((["p1", "p2"]).filter (fun v => v.length > 0)).length ≤ 6 ∧
        ((["p1", "p2"]).filter (fun v => v.length > 0)).length ≤ 6 ∧
        (1 ≤ ((["p1", "p2"]).filter (fun v => v.length > 0)).length →
          List.length [wildDel] < 6)) :=
  ⟨rfl, by decide, rfl, rfl,
    expandEdges_wildcard_count envFanout 5 wildDel ["p1", "p2"]
      [{ wildDel with attr := "p1" },
        bookkeepingEdge EdgeOp.DEL 1 "p1",
        reverseEdge EdgeOp.DEL 7 "p1", reverseEdge EdgeOp.DEL 8 "p1",
        { wildDel with attr := "p2" },
        bookkeepingEdge EdgeOp.DEL 1 "p2"]
      rfl (by decide) rfl rfl⟩

/-- C10: every per-predicate narrowed edge emitted by the wildcard
expander is the input edge with only the Attr field replaced by the
concrete predicate: operation kind, entity, value, target id, label,
language and facets are unchanged (the Go struct copy
edgeCopy := *edge). -/
theorem expandPred_narrowed_copy (env : ExpEnv) (ts : Nat)
    (edge : DirectedEdge) (pred : String) (out : List DirectedEdge)
    (h : expandPred env ts edge pred = .ok out) :
    ∃ e₀ rest, out = e₀ :: rest ∧ e₀.attr = pred ∧ e₀.op = edge.op ∧
      e₀.entity = edge.entity ∧ e₀.value = edge.value ∧
      e₀.valueId = edge.valueId ∧ e₀.label = edge.label ∧
      e₀.lang = edge.lang ∧ e₀.facets = edge.facets := by
  have hout : ∃ rest, out = { edge with attr := pred } :: rest := by
    unfold expandPred at h
    split at h
    · simp at h
      exact ⟨_, h.symm⟩
    · split at h
      · simp at h
        exact ⟨_, h.symm⟩
      · cases ha : env.adjacency pred edge.entity ts with
        | error e => rw [ha] at h; exact absurd h (by simp)
        | ok objs =>
          rw [ha] at h
          simp at h
          exact ⟨_, h.symm⟩
  obtain ⟨rest, hrest⟩ := hout
  exact ⟨{ edge with attr := pred }, rest, hrest, rfl, rfl, rfl, rfl,
    rfl, rfl, rfl, rfl⟩

/-- C10 witness: the narrowed-copy theorem at a concrete reversed
predicate with stored targets. -/
theorem expandPred_narrowed_copy_witness :
    expandPred envFanout 5 wildDel "p1" = .ok
        [{ wildDel with attr := "p1" },
          bookkeepingEdge EdgeOp.DEL 1 "p1",
          reverseEdge EdgeOp.DEL 7 "p1",
          reverseEdge EdgeOp.DEL 8 "p1"] ∧
      (∃ e₀ rest,
        ([{ wildDel with attr := "p1" },
          bookkeepingEdge EdgeOp.DEL 1 "p1",
          reverseEdge EdgeOp.DEL 7 "p1",
          reverseEdge EdgeOp.DEL 8 "p1"]) = e₀ :: rest ∧
        e₀.attr = "p1" ∧ e₀.op = wildDel.op ∧
        e₀.entity = wildDel.entity ∧ e₀.value = wildDel.value ∧
        e₀.valueId = wildDel.valueId ∧ e₀.label = wildDel.label ∧
        e₀.lang = wildDel.lang ∧ e₀.facets = wildDel.facets) :=
  ⟨rfl,
    expandPred_narrowed_copy envFanout 5 wildDel "p1" _ rfl⟩

/-- C6: with the expand_edge gate disabled, a mutation containing an
edge whose predicate is the wildcard marker is rejected with the
configuration error, for every commit function — the result does not
depend on the commit call, so no network call is reached. -/
theorem ApplyMutations_disabled_wildcard_rejected {τ : Type}
    (env : ExpEnv) (commit : List DirectedEdge → Nat → Except String τ)
    (m : Mutations) (h : ∃ e ∈ m.edges, e.attr = xStar) :
    ApplyMutations false env commit m = .error
      "Expand edge (--expand_edge) is set to false. Cannot perform S * * deletion." := by
  have hany : m.edges.any (fun mu => mu.attr = xStar) = true := by
    rcases h with ⟨e, he, ha⟩
    exact List.any_eq_true.mpr ⟨e, he, by simp [ha]⟩
  simp [ApplyMutations, hany]

/-- C6 witness: the disabled-gate rejection at the concrete S * *
delete edge and the always-succeeding commit. -/
theorem ApplyMutations_disabled_wildcard_rejected_witness :
    (∃ e ∈ ([wildDel] : List DirectedEdge), e.attr = xStar) ∧
      ApplyMutations false envFanout okCommit ⟨[wildDel], 5⟩ = .error
        "Expand edge (--expand_edge) is set to false. Cannot perform S * * deletion." :=
  ⟨⟨wildDel, by simp, rfl⟩,
    ApplyMutations_disabled_wildcard_rejected envFanout okCommit
      ⟨[wildDel], 5⟩ ⟨wildDel, by simp, rfl⟩⟩

/-- Helper: processing a reference that is not a blank-node label never
extends the uid map. -/
theorem processRef_preserves (env : AUEnv) (m m₁ : UidMap) (ref : String)
    (hb : isBlankRef ref = false)
    (h : processRef env m ref = .ok m₁) : m₁ = m := by
  unfold processRef at h
  by_cases hl : ref.length = 0
  · rw [if_pos hl] at h
    simp at h
    exact h.symm
  · rw [if_neg hl] at h
    simp only [hb] at h
    cases hp : env.parseUid ref with
    | error e => simp [hp] at h
    | ok uid =>
      simp only [hp] at h
      cases hv : verifyUid env.maxLeaseId uid with
      | some e => simp [hv] at h
      | none =>
        simp [hv] at h
        exact h.symm

/-- Helper: processing a statement without blank-node labels never
extends the uid map. -/
theorem processNQ_preserves (env : AUEnv) (m m₁ : UidMap) (nq : NQuad)
    (hbs : isBlankRef nq.subject = false)
    (hbo : isBlankRef nq.objectId = false)
    (h : processNQ env m nq = .ok m₁) : m₁ = m := by
  unfold processNQ at h
  by_cases hsh : nq.subject = xStar ∧ nq.objectDefaultVal = xStar
  · rw [if_pos hsh] at h
    simp at h
    exact h.symm
  · rw [if_neg hsh] at h
    cases hr : processRef env m nq.subject with
    | error e => simp [hr] at h
    | ok m₂ =>
      rw [hr] at h
      have h₂ := processRef_preserves env m m₂ nq.subject hbs hr
      subst h₂
      exact processRef_preserves env m₂ m₁ nq.objectId hbo h

/-- Helper: the scan phase leaves the accumulated map unchanged when no
statement carries a blank-node label. -/
theorem collectUids_preserves (env : AUEnv) (acc : UidMap)
    (nquads : List NQuad) (m : UidMap)
    (hb : ∀ nq ∈ nquads, isBlankRef nq.subject = false ∧
      isBlankRef nq.objectId = false)
    (h : collectUids env acc nquads = .ok m) : m = acc := by
  induction nquads generalizing acc with
  | nil =>
    simp [collectUids] at h
    exact h.symm
  | cons nq tl ih =>
    unfold collectUids at h
    cases hp : processNQ env acc nq with
    | error e => simp [hp] at h
    | ok m₁ =>
      rw [hp] at h
      have h₁ := processNQ_preserves env acc m₁ nq
        (hb nq (List.mem_cons_self nq tl)).1
        (hb nq (List.mem_cons_self nq tl)).2 hp
      subst h₁
      exact ih m₁ (fun q hq => hb q (List.mem_cons_of_mem nq hq)) h

/-- C7: a statement list with no blank-node labels makes AssignUids
independent of the allocation function (no allocation request is
issued), and an error-free run returns the empty map. -/
theorem AssignUids_no_blank_no_alloc (env : AUEnv) (nquads : List NQuad)
    (hb : ∀ nq ∈ nquads, isBlankRef nq.subject = false ∧
      isBlankRef nq.objectId = false) :
    (∀ alloc₁ alloc₂ : Nat → Except String (Nat × Nat),
        AssignUids env alloc₁ nquads = AssignUids env alloc₂ nquads) ∧
      (∀ (alloc : Nat → Except String (Nat × Nat)) (m : UidMap),
        AssignUids env alloc nquads = .ok m → m = []) := by
  cases hc : collectUids env [] nquads with
  | error e =>
    constructor
    · intro a₁ a₂
      simp [AssignUids, hc]
    · intro alloc m h
      simp [AssignUids, hc] at h
  | ok m₀ =>
    have hm₀ : m₀ = [] := collectUids_preserves env [] nquads m₀ hb hc
    subst hm₀
    constructor
    · intro a₁ a₂
      simp [AssignUids, hc]
    · intro alloc m h
      simp [AssignUids, hc] at h
      exact h

/-- C7 witness: the zero-allocation theorem at a concrete one-statement
list without blank-node labels. -/
theorem AssignUids_no_blank_no_alloc_witness :
    (∀ nq ∈ [emptyNQ], isBlankRef nq.subject = false ∧
        isBlankRef nq.objectId = false) ∧
      ((∀ alloc₁ alloc₂ : Nat → Except String (Nat × Nat),
          AssignUids envAU alloc₁ [emptyNQ] =
            AssignUids envAU alloc₂ [emptyNQ]) ∧
        (∀ (alloc : Nat → Except String (Nat × Nat)) (m : UidMap),
          AssignUids envAU alloc [emptyNQ] = .ok m → m = [])) :=
  ⟨by decide, AssignUids_no_blank_no_alloc envAU [emptyNQ] (by decide)⟩

/-- Helper: when the granted inclusive range [cur, endId] holds at
least as many ids as the map has labels and cur is nonzero, the
assignment loop succeeds and hands out the consecutive ids
cur, cur+1, ... in enumeration order. -/
theorem assignLoop_spec (m : UidMap) (cur endId : Nat)
    (h1 : 1 ≤ cur) (h2 : cur + m.length ≤ endId + 1) :
    ∃ m₁, assignLoop m cur endId = .ok m₁ ∧
      m₁.map Prod.fst = m.map Prod.fst ∧
      m₁.map Prod.snd = List.range' cur m.length := by
  induction m generalizing cur with
  | nil => exact ⟨[], rfl, rfl, rfl⟩
  | cons p tl ih =>
    obtain ⟨k, v⟩ := p
    have hcond : cur ≠ 0 ∧ cur ≤ endId := by
      simp at h2
      omega
    obtain ⟨tl₁, htl, hfst, hsnd⟩ := ih (cur + 1) (by omega)
      (by simp at h2 ⊢; omega)
    refine ⟨(k, cur) :: tl₁, ?_, ?_, ?_⟩
    · simp [assignLoop, hcond, htl]
    · simp [hfst]
    · simp [hsnd, List.range'_succ]

/-- C8: when the lease authority grants a range starting at 1 or above
with at least as many identifiers as there are distinct blank-node
labels, the cursor assertion of the assignment loop never fires:
AssignUids succeeds, keeps exactly the collected labels, and assigns
pairwise-distinct identifiers all within the granted range. -/
theorem AssignUids_cursor_within_range (env : AUEnv)
    (alloc : Nat → Except String (Nat × Nat)) (nquads : List NQuad)
    (m : UidMap) (s e : Nat)
    (hc : collectUids env [] nquads = .ok m)
    (ha : alloc m.length = .ok (s, e))
    (hs : 1 ≤ s) (he : s + m.length ≤ e + 1) :
    ∃ m₁, AssignUids env alloc nquads = .ok m₁ ∧
      m₁.map Prod.fst = m.map Prod.fst ∧
      (m₁.map Prod.snd).Nodup ∧
      ∀ p ∈ m₁, s ≤ p.2 ∧ p.2 ≤ e := by
  by_cases hlen : m.length > 0
  · obtain ⟨m₁, hal, hfst, hsnd⟩ := assignLoop_spec m s e hs he
    refine ⟨m₁, ?_, hfst, ?_, ?_⟩
    · simp [AssignUids, hc, hlen, ha, hal]
    · rw [hsnd]
      exact List.nodup_range' s m.length
    · intro p hp
      have hmem : p.2 ∈ m₁.map Prod.snd := List.mem_map_of_mem _ hp
      rw [hsnd] at hmem
      obtain ⟨i, hi, hpi⟩ := List.mem_range'.mp hmem
      omega
  · have hm : m = [] := List.length_eq_zero.mp (by omega)
    subst hm
    refine ⟨[], by simp [AssignUids, hc], rfl, by simp, by simp⟩

/-- C8 witness: the cursor theorem at two blank-node labels and the
granted inclusive range [5, 100]. -/
theorem AssignUids_cursor_within_range_witness :
    collectUids envAU [] [nqBlankA, nqBlankB] =
        .ok [("_:a", 0), ("_:b", 0)] ∧
      (fun _ : Nat => (.ok (5, 100) : Except String (Nat × Nat))) 2 =
        .ok (5, 100) ∧
      1 ≤ 5 ∧ 5 + 2 ≤ 100 + 1 ∧
      (∃ m₁, AssignUids envAU (fun _ => .ok (5, 100))
          [nqBlankA, nqBlankB] = .ok m₁ ∧
        m₁.map Prod.fst = ([("_:a", 0), ("_:b", 0)] : UidMap).map Prod.fst ∧
        (m₁.map Prod.snd).Nodup ∧
        ∀ p ∈ m₁, 5 ≤ p.2 ∧ p.2 ≤ 100) :=
  ⟨rfl, rfl, by decide, by decide,
    AssignUids_cursor_within_range envAU (fun _ => .ok (5, 100))
      [nqBlankA, nqBlankB] [("_:a", 0), ("_:b", 0)] 5 100
      rfl rfl (by decide) (by decide)⟩

end Mutation
